import Mathlib

/-!
Shallow embedding of the droply ZIP codec.

Source of truth:
  * `src/wasm/crates/archive/zip/src/lib.rs`      (`pack`, `unpack`, `le_u16`, `le_u32`)
  * `src/wasm/crates/compression/zip/src/lib.rs`  (`compress`, `decompress`)

Byte streams are `List Nat` (each element a byte value `< 256`); machine
integers are `Nat` with explicit `% 2^w` where the source truncates
(`as u16` / `as u32`).  Fallible Rust functions returning
`Result<_, JsValue>` become `Except String _`, keeping the exact error
message strings of the source.  The JS-bridge marshalling
(`Uint8Array`, `serde_wasm_bindgen`) is out of scope per spec section 9
and is modelled as plain lists and records.
-/

set_option maxRecDepth 100000

namespace Droply

/-- An entry handed to / recovered from the codec: a named byte blob.
Mirrors `struct FileEntry { name: String, data: Vec<u8> }`; the `String`
is modelled as its UTF-8 byte sequence. -/
structure FileEntry where
  name : List Nat
  data : List Nat
deriving DecidableEq, Repr

/-- Modelled from the spec: the raw-DEFLATE compressor/decompressor is the
external `flate2` collaborator (spec sections 1 and 6 declare it out of
scope, an opaque `compress/decompress` over byte buffers).  `deflate` takes
the compression level the caller selected and is total (in-memory deflate
has no failure mode the source propagates for encode); `inflate` may fail
like `DeflateDecoder::read_to_end`. -/
structure DeflateCodec where
  deflate : Nat → List Nat → List Nat
  inflate : List Nat → Except String (List Nat)

/-- A trivial codec instance (identity transform), used to instantiate
theorems at concrete inputs; it satisfies the round-trip contract of a
deflate implementation. -/
def idCodec : DeflateCodec :=
  { deflate := fun _ d => d, inflate := fun d => .ok d }

/-! ### Byte-level helpers (the source's `le_u16` / `le_u32` and slicing) -/

/-- Read the byte at index `i`; out-of-range reads return 0 (they never
happen on the paths the source guards). -/
def byteAt (s : List Nat) (i : Nat) : Nat := s.getD i 0

/-- `u16::from_le_bytes([buf[i], buf[i+1]])`. -/
def le_u16 (s : List Nat) (i : Nat) : Nat :=
  byteAt s i + 256 * byteAt s (i + 1)

/-- `u32::from_le_bytes([buf[i], .., buf[i+3]])`. -/
def le_u32 (s : List Nat) (i : Nat) : Nat :=
  byteAt s i + 256 * byteAt s (i + 1) + 65536 * byteAt s (i + 2)
    + 16777216 * byteAt s (i + 3)

/-- The slice `&data[a..b]` (with `a ≤ b ≤ data.len()` on guarded paths). -/
def slice (s : List Nat) (a b : Nat) : List Nat := (s.drop a).take (b - a)

/-- `u16::to_le_bytes` (truncation `as u16` is the per-byte `%`). -/
def u16le (n : Nat) : List Nat := [n % 256, n / 256 % 256]

/-- `u32::to_le_bytes` (truncation `as u32` is the per-byte `%`). -/
def u32le (n : Nat) : List Nat :=
  [n % 256, n / 256 % 256, n / 65536 % 256, n / 16777216 % 256]

/-- The test `&data[pos..pos + 4] == b"PK\x03\x04"` (local-file-header
signature `50 4B 03 04`), as the four byte comparisons. -/
def sigAt (s : List Nat) (pos : Nat) : Bool :=
  decide (byteAt s pos = 80 ∧ byteAt s (pos + 1) = 75 ∧
    byteAt s (pos + 2) = 3 ∧ byteAt s (pos + 3) = 4)

/-! ### CRC32 -/

/-- One bit-round of the reflected CRC-32 (polynomial `0xEDB88320`). -/
def crc32Round (c : Nat) : Nat :=
  if c % 2 = 1 then (c / 2) ^^^ 0xEDB88320 else c / 2

/-- Fold one byte into the running CRC state. -/
def crc32Byte (c b : Nat) : Nat :=
  crc32Round (crc32Round (crc32Round (crc32Round
    (crc32Round (crc32Round (crc32Round (crc32Round (c ^^^ b))))))))

/-- Modelled from the spec (section 4.2): CRC32 over the uncompressed
bytes, standard ISO-3309/zlib reflected algorithm — the source delegates
to the external `crc32fast` crate, which is not part of this repository. -/
def crc32 (data : List Nat) : Nat :=
  (data.foldl crc32Byte 4294967295) ^^^ 4294967295

/-! ### UTF-8 validity -/

/-- A UTF-8 continuation byte `0x80..=0xBF`. -/
def isCont (b : Nat) : Bool := 128 ≤ b && b ≤ 191

/-- Modelled from the spec (section 4.4, `InvalidEncoding`): the validity
check of `std::str::from_utf8` (RFC 3629 well-formed UTF-8, rejecting
overlong forms, surrogates and code points above `U+10FFFF`); the Rust
standard library is not part of this repository. -/
def utf8Valid : List Nat → Bool
  | [] => true
  | b :: rest =>
    if b ≤ 127 then utf8Valid rest
    else if 194 ≤ b && b ≤ 223 then
      match rest with
      | c1 :: r => isCont c1 && utf8Valid r
      | [] => false
    else if b = 224 then
      match rest with
      | c1 :: c2 :: r => (160 ≤ c1 && c1 ≤ 191) && isCont c2 && utf8Valid r
      | _ => false
    else if 225 ≤ b && b ≤ 236 then
      match rest with
      | c1 :: c2 :: r => isCont c1 && isCont c2 && utf8Valid r
      | _ => false
    else if b = 237 then
      match rest with
      | c1 :: c2 :: r => (128 ≤ c1 && c1 ≤ 159) && isCont c2 && utf8Valid r
      | _ => false
    else if 238 ≤ b && b ≤ 239 then
      match rest with
      | c1 :: c2 :: r => isCont c1 && isCont c2 && utf8Valid r
      | _ => false
    else if b = 240 then
      match rest with
      | c1 :: c2 :: c3 :: r =>
          (144 ≤ c1 && c1 ≤ 191) && isCont c2 && isCont c3 && utf8Valid r
      | _ => false
    else if 241 ≤ b && b ≤ 243 then
      match rest with
      | c1 :: c2 :: c3 :: r => isCont c1 && isCont c2 && isCont c3 && utf8Valid r
      | _ => false
    else if b = 244 then
      match rest with
      | c1 :: c2 :: c3 :: r =>
          (128 ≤ c1 && c1 ≤ 143) && isCont c2 && isCont c3 && utf8Valid r
      | _ => false
    else false

/-! ### Record layout (encode side), `archive/zip` `pack` -/

/-- The 30-byte local file header, exactly the field sequence `pack`
emits (signature, version-needed 20, flags 0, method, time 0, date 0,
crc32, compressed size, uncompressed size, filename length, extra
length 0). -/
def mkLocalHeader (method crc compSize uncompSize nameLen : Nat) : List Nat :=
  [80, 75, 3, 4] ++ u16le 20 ++ u16le 0 ++ u16le method ++ u16le 0 ++ u16le 0 ++
    u32le crc ++ u32le compSize ++ u32le uncompSize ++ u16le nameLen ++ u16le 0

/-- The per-entry encode result `pack` keeps for the central directory:
the Rust `CdRec` minus the relative offset, which `cdAux` below
recomputes as the running sum of emitted chunk lengths (exactly the value
`out.len()` had when the entry's local header was written). -/
structure EncRec where
  file : FileEntry
  method : Nat
  crc : Nat
  payload : List Nat
deriving DecidableEq, Repr

/-- Local-header chunk of one entry: header + filename bytes + payload. -/
def chunk (r : EncRec) : List Nat :=
  mkLocalHeader r.method r.crc r.payload.length r.file.data.length
      r.file.name.length
    ++ r.file.name ++ r.payload

/-- One central-directory entry (signature `50 4B 01 02`, the field
sequence of the source, relative offset `off`). -/
def cdEntryBytes (r : EncRec) (off : Nat) : List Nat :=
  [80, 75, 1, 2] ++ u16le 20 ++ u16le 20 ++ u16le 0 ++ u16le r.method ++
    u16le 0 ++ u16le 0 ++ u32le r.crc ++ u32le r.payload.length ++
    u32le r.file.data.length ++ u16le r.file.name.length ++ u16le 0 ++
    u16le 0 ++ u16le 0 ++ u16le 0 ++ u32le 0 ++ u32le off ++ r.file.name

/-- Central directory bytes: entries in input order, each carrying the
byte offset at which its local header was emitted. -/
def cdAux : List EncRec → Nat → List Nat
  | [], _ => []
  | r :: rest, off => cdEntryBytes r off ++ cdAux rest (off + (chunk r).length)

/-- The 22-byte end-of-central-directory record (signature `50 4B 05 06`,
disk numbers 0, both entry counts, central-directory size and offset,
comment length 0). -/
def mkEocd (count cdSize cdOff : Nat) : List Nat :=
  [80, 75, 5, 6] ++ u16le 0 ++ u16le 0 ++ u16le count ++ u16le count ++
    u32le cdSize ++ u32le cdOff ++ u16le 0

/-- `opts.level.unwrap_or(6).min(9)`. -/
def packLvl (level : Option Nat) : Nat := min (level.getD 6) 9

/-- Method chosen per entry: 8 (deflate) iff `compress_inside`. -/
def methodOf (compressInside : Bool) : Nat := if compressInside then 8 else 0

/-- Payload chosen per entry: deflated data iff `compress_inside`,
otherwise the raw bytes (`file.data.clone()`). -/
def payloadOf (c : DeflateCodec) (compressInside : Bool) (lvl : Nat)
    (f : FileEntry) : List Nat :=
  if compressInside then c.deflate lvl f.data else f.data

/-- Per-entry step of `pack`'s loop: CRC over the raw bytes, method and
payload per `compress_inside`, then the 16-bit filename-length check
(`fname.len() > u16::MAX`). -/
def encodeEntry (c : DeflateCodec) (compressInside : Bool) (lvl : Nat)
    (f : FileEntry) : Except String EncRec :=
  if 65535 < f.name.length then .error "Filename too long for ZIP"
  else .ok ⟨f, methodOf compressInside, crc32 f.data, payloadOf c compressInside lvl f⟩

/-- `pack` split into its three regions (all local chunks, the central
directory, the EOCD); `pack` itself concatenates them.  `cd_start` is the
output length after the local chunks, `cd_size` the central directory's
byte span, and the EOCD entry counts are `central.len()`. -/
def packParts (c : DeflateCodec) (files : List FileEntry)
    (compressInside : Bool) (level : Option Nat) :
    Except String (List Nat × List Nat × List Nat) :=
  (files.mapM (encodeEntry c compressInside (packLvl level))).map fun rs =>
    let locals := (rs.map chunk).flatten
    let cd := cdAux rs 0
    (locals, cd, mkEocd rs.length cd.length locals.length)

/-- `pack(files, options) -> Result<bytes>`: the whole `.zip` stream. -/
def pack (c : DeflateCodec) (files : List FileEntry) (compressInside : Bool)
    (level : Option Nat) : Except String (List Nat) :=
  (packParts c files compressInside level).map fun p => p.1 ++ p.2.1 ++ p.2.2

/-! ### `archive/zip` `unpack`

The Rust `while pos + 30 <= data.len()` loop, as a fuel-indexed recursion:
every iteration advances `pos` by at least one, so `s.length + 1` units of
fuel always suffice (`unpackAux_fuel` below proves the result does not
depend on the fuel once it exceeds `s.length - pos`); `unpack` runs it with
that fuel from position 0. -/

def unpackAux (c : DeflateCodec) (s : List Nat) :
    Nat → Nat → Except String (List FileEntry)
  | 0, _ => .ok []
  | fuel + 1, pos =>
    if pos + 30 ≤ s.length then
      if sigAt s pos then
        -- local file header fields; the source also reads `_ver_needed`
        -- (pos+4), `_crc32` (pos+14) and `uncomp_size` (pos+22, used only
        -- as a `Vec::with_capacity` hint) and never uses their values
        let flags := le_u16 s (pos + 6)
        let method := le_u16 s (pos + 8)
        let compSize := le_u32 s (pos + 18)
        let fnameLen := le_u16 s (pos + 26)
        let extraLen := le_u16 s (pos + 28)
        -- data descriptors (flag bit 3) are not supported
        if flags &&& 8 ≠ 0 then
          .error "Unsupported ZIP: data descriptor (flag bit 3) set"
        else if s.length < pos + (30 + fnameLen + extraLen) then
          .error "Corrupt ZIP: header exceeds buffer"
        else
          let nameBytes := slice s (pos + 30) (pos + (30 + fnameLen))
          if utf8Valid nameBytes then
            let fileDataStart := pos + (30 + fnameLen + extraLen)
            let fileDataEnd := pos + (30 + fnameLen + extraLen + compSize)
            if s.length < fileDataEnd then
              .error "Corrupt ZIP: file data exceeds buffer"
            else
              let raw := slice s fileDataStart fileDataEnd
              if method = 0 then
                (unpackAux c s fuel fileDataEnd).map
                  (FileEntry.mk nameBytes raw :: ·)
              else if method = 8 then
                match c.inflate raw with
                | .ok bytes =>
                  (unpackAux c s fuel fileDataEnd).map
                    (FileEntry.mk nameBytes bytes :: ·)
                | .error e => .error e
              else .error "Unsupported compression method"
          else .error "Invalid UTF-8 in filename"
      else unpackAux c s fuel (pos + 1)
    else .ok []

/-- `unpack(archive) -> Result<Vec<FileEntry>>`. -/
def unpack (c : DeflateCodec) (s : List Nat) : Except String (List FileEntry) :=
  unpackAux c s (s.length + 1) 0

/-! ### `compression/zip` `compress` / `decompress` -/

/-- The default single-entry name `"data.bin"` as UTF-8 bytes. -/
def dataBinName : List Nat := [100, 97, 116, 97, 46, 98, 105, 110]

/-- `compress(input, filename, level)`: wrap raw bytes as a one-file ZIP;
level 0 stores, any other level deflates; same record layout, with the
one local header at offset 0 and entry counts 1. -/
def compress (c : DeflateCodec) (input : List Nat)
    (filename : Option (List Nat)) (level : Option Nat) :
    Except String (List Nat) :=
  let name := filename.getD dataBinName
  let lvl := min (level.getD 6) 9
  let crc := crc32 input
  let method : Nat := if lvl = 0 then 0 else 8
  let payload := if lvl = 0 then input else c.deflate lvl input
  if 65535 < name.length then .error "Filename too long"
  else
    let localPart :=
      mkLocalHeader method crc payload.length input.length name.length
        ++ name ++ payload
    let cd := cdEntryBytes ⟨⟨name, input⟩, method, crc, payload⟩ 0
    .ok (localPart ++ cd ++ mkEocd 1 cd.length localPart.length)

/-- The `while pos + 30 <= buf.len() && &buf[pos..pos+4] != b"PK\x03\x04"
{ pos += 1 }` search loop of `decompress`, fuel-indexed like `unpackAux`. -/
def findSigAux (s : List Nat) : Nat → Nat → Nat
  | 0, pos => pos
  | fuel + 1, pos =>
    if pos + 30 ≤ s.length && !sigAt s pos then findSigAux s fuel (pos + 1)
    else pos

/-- `decompress(zip) -> Result<bytes>`: find the first local header and
return its decoded payload. -/
def decompress (c : DeflateCodec) (s : List Nat) : Except String (List Nat) :=
  let pos := findSigAux s (s.length + 1) 0
  if s.length < pos + 30 then .error "Not a ZIP (missing local header)"
  else if le_u16 s (pos + 6) &&& 8 ≠ 0 then
    .error "Unsupported ZIP: data descriptor set"
  else
    let method := le_u16 s (pos + 8)
    let compSize := le_u32 s (pos + 18)
    let fnameLen := le_u16 s (pos + 26)
    let extraLen := le_u16 s (pos + 28)
    let dataStart := pos + 30 + fnameLen + extraLen
    let dataEnd := dataStart + compSize
    if s.length < dataEnd then .error "Corrupt ZIP: data beyond buffer"
    else
      let raw := slice s dataStart dataEnd
      if method = 0 then .ok raw
      else if method = 8 then c.inflate raw
      else .error "Unsupported ZIP method"

/-! ## Basic byte-level lemmas -/

theorem byteAt_shift (a b : List Nat) (i : Nat) :
    byteAt (a ++ b) (a.length + i) = byteAt b i := by
  unfold byteAt
  rw [List.getD_append_right] <;> simp

theorem le_u16_shift (a b : List Nat) (i : Nat) :
    le_u16 (a ++ b) (a.length + i) = le_u16 b i := by
  unfold le_u16
  rw [show a.length + i + 1 = a.length + (i + 1) by omega,
    byteAt_shift, byteAt_shift]

theorem le_u32_shift (a b : List Nat) (i : Nat) :
    le_u32 (a ++ b) (a.length + i) = le_u32 b i := by
  unfold le_u32
  rw [show a.length + i + 1 = a.length + (i + 1) by omega,
    show a.length + i + 2 = a.length + (i + 2) by omega,
    show a.length + i + 3 = a.length + (i + 3) by omega,
    byteAt_shift, byteAt_shift, byteAt_shift, byteAt_shift]

theorem sigAt_shift (a b : List Nat) (i : Nat) :
    sigAt (a ++ b) (a.length + i) = sigAt b i := by
  unfold sigAt
  rw [show a.length + i + 1 = a.length + (i + 1) by omega,
    show a.length + i + 2 = a.length + (i + 2) by omega,
    show a.length + i + 3 = a.length + (i + 3) by omega,
    byteAt_shift, byteAt_shift, byteAt_shift, byteAt_shift]

theorem drop_shift (a b : List Nat) (i : Nat) :
    (a ++ b).drop (a.length + i) = b.drop i := by
  rw [← List.drop_drop, List.drop_left]

theorem slice_shift (a b : List Nat) (i j : Nat) :
    slice (a ++ b) (a.length + i) (a.length + j) = slice b i j := by
  unfold slice
  rw [drop_shift, show a.length + j - (a.length + i) = j - i by omega]

/-! ## Fuel irrelevance for the decoder loops

Each iteration of the Rust `while` loop advances `pos` by at least one,
so any fuel exceeding `s.length - pos` gives the loop's semantics. -/

theorem unpackAux_fuel (c : DeflateCodec) (s : List Nat) :
    ∀ f g pos, s.length - pos < f → s.length - pos < g →
      unpackAux c s f pos = unpackAux c s g pos := by
  intro f
  induction f with
  | zero => omega
  | succ f ih =>
    intro g pos hf hg
    match g, hg with
    | g + 1, hg =>
      simp only [unpackAux]
      by_cases h30 : pos + 30 ≤ s.length
      · rw [if_pos h30, if_pos h30]
        by_cases hsig : sigAt s pos = true
        · rw [if_pos hsig, if_pos hsig]
          by_cases hb3 : le_u16 s (pos + 6) &&& 8 ≠ 0
          · rw [if_pos hb3, if_pos hb3]
          · rw [if_neg hb3, if_neg hb3]
            by_cases hhdr : s.length <
                pos + (30 + le_u16 s (pos + 26) + le_u16 s (pos + 28))
            · rw [if_pos hhdr, if_pos hhdr]
            · rw [if_neg hhdr, if_neg hhdr]
              by_cases hutf : utf8Valid (slice s (pos + 30)
                  (pos + (30 + le_u16 s (pos + 26)))) = true
              · rw [if_pos hutf, if_pos hutf]
                by_cases hfde : s.length < pos + (30 + le_u16 s (pos + 26) +
                    le_u16 s (pos + 28) + le_u32 s (pos + 18))
                · rw [if_pos hfde, if_pos hfde]
                · rw [if_neg hfde, if_neg hfde]
                  have hrec : unpackAux c s f (pos + (30 + le_u16 s (pos + 26) +
                        le_u16 s (pos + 28) + le_u32 s (pos + 18))) =
                      unpackAux c s g (pos + (30 + le_u16 s (pos + 26) +
                        le_u16 s (pos + 28) + le_u32 s (pos + 18))) := by
                    apply ih <;> omega
                  by_cases hm0 : le_u16 s (pos + 8) = 0
                  · rw [if_pos hm0, if_pos hm0, hrec]
                  · rw [if_neg hm0, if_neg hm0]
                    by_cases hm8 : le_u16 s (pos + 8) = 8
                    · rw [if_pos hm8, if_pos hm8]
                      cases hx : c.inflate (slice s
                          (pos + (30 + le_u16 s (pos + 26) + le_u16 s (pos + 28)))
                          (pos + (30 + le_u16 s (pos + 26) + le_u16 s (pos + 28) +
                            le_u32 s (pos + 18)))) with
                      | ok v => simp only [hx, hrec]
                      | error e => simp only [hx]
                    · rw [if_neg hm8, if_neg hm8]
              · rw [if_neg hutf, if_neg hutf]
        · rw [if_neg hsig, if_neg hsig]
          exact ih g (pos + 1) (by omega) (by omega)
      · rw [if_neg h30, if_neg h30]

/-- Decoding from position `a.length + i` of `a ++ b` is decoding `b`
from position `i`: the loop never looks left of the cursor. -/
theorem unpackAux_shift (c : DeflateCodec) (a b : List Nat) :
    ∀ (fuel i : Nat),
      unpackAux c (a ++ b) fuel (a.length + i) = unpackAux c b fuel i := by
  intro fuel
  induction fuel with
  | zero => intro i; rfl
  | succ f ih =>
    intro i
    have hB : ∀ j, byteAt (a ++ b) (a.length + j) = byteAt b j :=
      byteAt_shift a b
    have h16 : ∀ j, le_u16 (a ++ b) (a.length + j) = le_u16 b j :=
      le_u16_shift a b
    have h32 : ∀ j, le_u32 (a ++ b) (a.length + j) = le_u32 b j :=
      le_u32_shift a b
    have hS : ∀ j, sigAt (a ++ b) (a.length + j) = sigAt b j :=
      sigAt_shift a b
    have hSl : ∀ u v, slice (a ++ b) (a.length + u) (a.length + v) = slice b u v :=
      slice_shift a b
    simp only [unpackAux, Nat.add_assoc, List.length_append, h16, h32, hS, hSl,
      ih, Nat.add_le_add_iff_left, Nat.add_lt_add_iff_left]

/-! ## Parsing one emitted local chunk -/

/-- What `pack` guarantees about each entry it emitted (name fits the
16-bit field, the name is valid UTF-8 because it came from a `String`,
the payload fits the 32-bit size field, and the method/payload pair is
store-with-raw-bytes or deflate-with-invertible-payload). -/
def WellformedRec (c : DeflateCodec) (r : EncRec) : Prop :=
  r.file.name.length ≤ 65535 ∧ utf8Valid r.file.name = true ∧
    r.payload.length < 4294967296 ∧
    ((r.method = 0 ∧ r.payload = r.file.data) ∨
      (r.method = 8 ∧ c.inflate r.payload = .ok r.file.data))

instance {ε α : Type} [DecidableEq ε] [DecidableEq α] :
    DecidableEq (Except ε α) := fun a b =>
  match a, b with
  | .ok x, .ok y =>
    if h : x = y then .isTrue (by rw [h]) else .isFalse (by simp [h])
  | .ok _, .error _ => .isFalse (by simp)
  | .error _, .ok _ => .isFalse (by simp)
  | .error e, .error f =>
    if h : e = f then .isTrue (by rw [h]) else .isFalse (by simp [h])

instance (c : DeflateCodec) (r : EncRec) : Decidable (WellformedRec c r) := by
  unfold WellformedRec; infer_instance

theorem mkLocalHeader_length (m cr cs us nl : Nat) :
    (mkLocalHeader m cr cs us nl).length = 30 := rfl

theorem chunk_length (r : EncRec) :
    (chunk r).length = 30 + r.file.name.length + r.payload.length := by
  simp [chunk, List.length_append, mkLocalHeader_length]
  omega

theorem chunk_eq (r : EncRec) (X : List Nat) :
    chunk r ++ X =
      mkLocalHeader r.method r.crc r.payload.length r.file.data.length
          r.file.name.length
        ++ (r.file.name ++ (r.payload ++ X)) := by
  simp [chunk, List.append_assoc]

theorem hdr_sig (m cr cs us nl : Nat) (X : List Nat) :
    sigAt (mkLocalHeader m cr cs us nl ++ X) 0 = true := rfl

theorem hdr_flags (m cr cs us nl : Nat) (X : List Nat) :
    le_u16 (mkLocalHeader m cr cs us nl ++ X) 6 = 0 := rfl

theorem hdr_method (m cr cs us nl : Nat) (X : List Nat) :
    le_u16 (mkLocalHeader m cr cs us nl ++ X) 8 = m % 65536 := by
  have h : le_u16 (mkLocalHeader m cr cs us nl ++ X) 8 =
      m % 256 + 256 * (m / 256 % 256) := rfl
  rw [h]; omega

theorem hdr_comp (m cr cs us nl : Nat) (X : List Nat) :
    le_u32 (mkLocalHeader m cr cs us nl ++ X) 18 = cs % 4294967296 := by
  have h : le_u32 (mkLocalHeader m cr cs us nl ++ X) 18 =
      cs % 256 + 256 * (cs / 256 % 256) + 65536 * (cs / 65536 % 256)
        + 16777216 * (cs / 16777216 % 256) := rfl
  rw [h]; omega

theorem hdr_nameLen (m cr cs us nl : Nat) (X : List Nat) :
    le_u16 (mkLocalHeader m cr cs us nl ++ X) 26 = nl % 65536 := by
  have h : le_u16 (mkLocalHeader m cr cs us nl ++ X) 26 =
      nl % 256 + 256 * (nl / 256 % 256) := rfl
  rw [h]; omega

theorem hdr_extra (m cr cs us nl : Nat) (X : List Nat) :
    le_u16 (mkLocalHeader m cr cs us nl ++ X) 28 = 0 := rfl

theorem chunk_drop30 (r : EncRec) (X : List Nat) :
    (chunk r ++ X).drop 30 = r.file.name ++ (r.payload ++ X) := by
  rw [chunk_eq, show (30 : Nat) =
    (mkLocalHeader r.method r.crc r.payload.length r.file.data.length
      r.file.name.length).length from rfl, List.drop_left]

theorem chunk_name_slice (r : EncRec) (X : List Nat) :
    slice (chunk r ++ X) 30 (30 + r.file.name.length) = r.file.name := by
  unfold slice
  rw [chunk_drop30, show 30 + r.file.name.length - 30 = r.file.name.length
    by omega]
  exact @List.take_left' _ _ _ _ rfl

theorem chunk_payload_slice (r : EncRec) (X : List Nat) :
    slice (chunk r ++ X) (30 + r.file.name.length)
      (30 + r.file.name.length + r.payload.length) = r.payload := by
  unfold slice
  rw [show 30 + r.file.name.length + r.payload.length -
    (30 + r.file.name.length) = r.payload.length by omega]
  rw [← List.drop_drop, chunk_drop30, List.drop_left]
  exact @List.take_left' _ _ _ _ rfl

/-- Decoding a stream that starts with one well-formed emitted chunk
parses exactly that entry and continues right after the chunk. -/
theorem unpackAux_chunk (c : DeflateCodec) (r : EncRec) (post : List Nat)
    (hw : WellformedRec c r) (f g : Nat)
    (hf : post.length + (chunk r).length < f) (hg : post.length < g) :
    unpackAux c (chunk r ++ post) f 0 =
      (unpackAux c post g 0).map (r.file :: ·) := by
  obtain ⟨hn65, hutf, hpl, hmp⟩ := hw
  have hcl := chunk_length r
  have hlen : (chunk r ++ post).length =
      30 + r.file.name.length + r.payload.length + post.length := by
    rw [List.length_append, hcl]
  cases f with
  | zero => omega
  | succ f =>
    simp only [unpackAux, Nat.zero_add]
    have hsig' : sigAt (chunk r ++ post) 0 = true := by
      rw [chunk_eq]; exact hdr_sig _ _ _ _ _ _
    have hflags : le_u16 (chunk r ++ post) 6 = 0 := by
      rw [chunk_eq]; exact hdr_flags _ _ _ _ _ _
    have hmeth : le_u16 (chunk r ++ post) 8 = r.method % 65536 := by
      rw [chunk_eq]; exact hdr_method _ _ _ _ _ _
    have hcs : le_u32 (chunk r ++ post) 18 = r.payload.length := by
      rw [chunk_eq, hdr_comp]; omega
    have hnl : le_u16 (chunk r ++ post) 26 = r.file.name.length := by
      rw [chunk_eq, hdr_nameLen]; omega
    have hel : le_u16 (chunk r ++ post) 28 = 0 := by
      rw [chunk_eq]; exact hdr_extra _ _ _ _ _ _
    rw [if_pos (show 30 ≤ (chunk r ++ post).length by omega)]
    rw [if_pos hsig']
    simp only [hflags, hmeth, hcs, hnl, hel, Nat.add_zero]
    rw [if_neg (show ¬((0 : Nat) &&& 8 ≠ 0) by decide)]
    rw [if_neg (show ¬((chunk r ++ post).length <
      30 + r.file.name.length) by omega)]
    rw [chunk_name_slice]
    rw [if_pos hutf]
    rw [if_neg (show ¬((chunk r ++ post).length <
      30 + r.file.name.length + r.payload.length) by omega)]
    rw [chunk_payload_slice]
    have hshift : unpackAux c (chunk r ++ post) f
        (30 + r.file.name.length + r.payload.length) = unpackAux c post g 0 := by
      rw [show 30 + r.file.name.length + r.payload.length =
        (chunk r).length + 0 by omega]
      rw [unpackAux_shift]
      exact unpackAux_fuel c post f g 0 (by omega) (by omega)
    rcases hmp with ⟨hm0, hpd⟩ | ⟨hm8, hinf⟩
    · rw [hm0]
      rw [if_pos (show (0 : Nat) % 65536 = 0 by decide)]
      rw [hshift, hpd]
    · rw [hm8]
      rw [if_neg (show ¬((8 : Nat) % 65536 = 0) by decide),
        if_pos (show (8 : Nat) % 65536 = 8 by decide)]
      simp only [hinf]
      rw [hshift]

/-- Decoding a stream that starts with a run of well-formed emitted
chunks parses exactly those entries in order and continues after them. -/
theorem unpackAux_chunks (c : DeflateCodec) :
    ∀ (rs : List EncRec) (post : List Nat) (f g : Nat),
      (∀ r ∈ rs, WellformedRec c r) →
      post.length + ((rs.map chunk).flatten).length < f → post.length < g →
      unpackAux c ((rs.map chunk).flatten ++ post) f 0 =
        (unpackAux c post g 0).map (fun l => rs.map EncRec.file ++ l) := by
  intro rs
  induction rs with
  | nil =>
    intro post f g _ hf hg
    simp only [List.map_nil, List.flatten_nil, List.nil_append] at hf ⊢
    rw [unpackAux_fuel c post f g 0 (by omega) (by omega)]
    cases unpackAux c post g 0 <;> simp [Except.map]
  | cons r rs ih =>
    intro post f g hw hf hg
    have hL : ((List.map chunk (r :: rs)).flatten).length =
        (chunk r).length + ((List.map chunk rs).flatten).length := by
      simp
    simp only [List.map_cons, List.flatten_cons, List.append_assoc]
    rw [unpackAux_chunk c r ((rs.map chunk).flatten ++ post)
      (hw r (by simp)) f (((rs.map chunk).flatten ++ post).length + 1)
      (by simp only [List.length_append] at *; omega)
      (by simp only [List.length_append]; omega)]
    rw [ih post (((rs.map chunk).flatten ++ post).length + 1) g
      (fun r' hr' => hw r' (by simp [hr']))
      (by simp only [List.length_append]; omega) hg]
    cases unpackAux c post g 0 <;> simp [Except.map]

/-- If no local-header signature occurs anywhere at or after `pos` (with
30 bytes remaining), the scan loop runs off the end and returns the
entries accumulated so far — for the top-level call, the empty list. -/
theorem unpackAux_sigFree (c : DeflateCodec) (s : List Nat)
    (hsf : ∀ p, p + 30 ≤ s.length → sigAt s p = false) :
    ∀ f pos, unpackAux c s f pos = .ok [] := by
  intro f
  induction f with
  | zero => intro pos; rfl
  | succ f ih =>
    intro pos
    simp only [unpackAux]
    by_cases h30 : pos + 30 ≤ s.length
    · rw [if_pos h30, hsf pos h30]
      rw [if_neg (show ¬(false = true) by simp)]
      exact ih (pos + 1)
    · rw [if_neg h30]

/-- Decidable check: no local-header signature anywhere in `s` with at
least 30 bytes remaining from it. -/
def sigFreeB (s : List Nat) : Bool :=
  (List.range (s.length + 1)).all fun p => !(decide (p + 30 ≤ s.length) && sigAt s p)

theorem sigFreeB_spec (s : List Nat) (h : sigFreeB s = true) :
    ∀ p, p + 30 ≤ s.length → sigAt s p = false := by
  intro p hp
  have hm : p ∈ List.range (s.length + 1) := List.mem_range.mpr (by omega)
  have h2 := List.all_eq_true.mp h p hm
  simp [hp] at h2
  exact h2

/-- Inverting a successful `mapM (encodeEntry ..)`: the records are the
pointwise encodings and every name fit the 16-bit length field. -/
theorem mapM_encodeEntry_ok (c : DeflateCodec) (ci : Bool) (lvl : Nat) :
    ∀ (files : List FileEntry) (rs : List EncRec),
      files.mapM (encodeEntry c ci lvl) = .ok rs →
      rs = files.map
          (fun fl => ⟨fl, methodOf ci, crc32 fl.data, payloadOf c ci lvl fl⟩) ∧
        ∀ fl ∈ files, fl.name.length ≤ 65535 := by
  intro files
  induction files with
  | nil =>
    intro rs h
    simp only [List.mapM_nil, pure, Except.pure, Except.ok.injEq] at h
    simp [← h]
  | cons fl fls ih =>
    intro rs h
    rw [List.mapM_cons] at h
    by_cases hlen : 65535 < fl.name.length
    · have henc : encodeEntry c ci lvl fl = .error "Filename too long for ZIP" := by
        unfold encodeEntry; rw [if_pos hlen]
      rw [henc] at h
      simp [Bind.bind, Except.bind] at h
    · have henc : encodeEntry c ci lvl fl =
          .ok ⟨fl, methodOf ci, crc32 fl.data, payloadOf c ci lvl fl⟩ := by
        unfold encodeEntry; rw [if_neg hlen]
      rw [henc] at h
      cases hm : fls.mapM (encodeEntry c ci lvl) with
      | error e =>
        rw [hm] at h
        simp [Bind.bind, Except.bind] at h
      | ok bs =>
        rw [hm] at h
        simp only [Bind.bind, Except.bind, pure, Except.pure,
          Except.ok.injEq] at h
        obtain ⟨h1, h2⟩ := ih bs hm
        constructor
        · rw [← h, h1, List.map_cons]
        · intro fl' hfl'
          rcases List.mem_cons.mp hfl' with hfl' | hfl'
          · rw [hfl']; omega
          · exact h2 fl' hfl'

/-! ## Claim C1 -/

/-- Claim C1 (as amended): decoding the encoder's output recovers the
original entries, for any number of entries with or without inner
compression, provided — as the counterexample `c1_counterexample` forces —
the central-directory/EOCD region of the packed stream contains no
local-file-header signature with 30 bytes remaining (names are valid
UTF-8 byte strings as they come from Rust `String`s, payload sizes fit
the 32-bit field, and the deflate collaborator round-trips the payloads
it produced). -/
theorem c1_round_trip (c : DeflateCodec) (files : List FileEntry)
    (ci : Bool) (level : Option Nat) (L C E : List Nat)
    (hparts : packParts c files ci level = .ok (L, C, E))
    (hn : ∀ fl ∈ files, utf8Valid fl.name = true)
    (hp : ∀ fl ∈ files, (payloadOf c ci (packLvl level) fl).length < 4294967296)
    (hinf : ∀ fl ∈ files, ci = true →
      c.inflate (payloadOf c ci (packLvl level) fl) = .ok fl.data)
    (hsig : sigFreeB (C ++ E) = true) :
    pack c files ci level = .ok (L ++ (C ++ E)) ∧
      unpack c (L ++ (C ++ E)) = .ok files := by
  unfold packParts at hparts
  cases hm : files.mapM (encodeEntry c ci (packLvl level)) with
  | error e =>
    rw [hm] at hparts
    simp [Except.map] at hparts
  | ok rs =>
    rw [hm] at hparts
    simp only [Except.map, Except.ok.injEq, Prod.mk.injEq] at hparts
    obtain ⟨hL, hC, hE⟩ := hparts
    obtain ⟨hrs, hn65⟩ := mapM_encodeEntry_ok c ci (packLvl level) files rs hm
    have hwf : ∀ r ∈ rs, WellformedRec c r := by
      intro r hr
      rw [hrs] at hr
      obtain ⟨fl, hfl, hfr⟩ := List.mem_map.mp hr
      refine hfr ▸ ⟨hn65 fl hfl, hn fl hfl, hp fl hfl, ?_⟩
      cases ci with
      | false =>
        left
        exact ⟨rfl, rfl⟩
      | true =>
        right
        exact ⟨rfl, hinf fl hfl rfl⟩
    have hfiles : rs.map EncRec.file = files := by
      rw [hrs, List.map_map]
      exact List.map_id files
    constructor
    · unfold pack packParts
      rw [hm]
      simp only [Except.map, Except.ok.injEq]
      rw [← hL, ← hC, ← hE, List.append_assoc]
    · unfold unpack
      rw [← hL, ← hC, ← hE]
      rw [unpackAux_chunks c rs (cdAux rs 0 ++ mkEocd rs.length (cdAux rs 0).length
          ((rs.map chunk).flatten).length)
        (((rs.map chunk).flatten ++ (cdAux rs 0 ++ mkEocd rs.length (cdAux rs 0).length
          ((rs.map chunk).flatten).length)).length + 1)
        ((cdAux rs 0 ++ mkEocd rs.length (cdAux rs 0).length
          ((rs.map chunk).flatten).length).length + 1)
        hwf (by simp only [List.length_append]; omega) (by omega)]
      rw [unpackAux_sigFree c _ (by rw [hE, hC]; exact sigFreeB_spec _ hsig)]
      simp [Except.map, hfiles]

/-- The `a.txt`/`hi` entry of the spec's concrete scenario. -/
def sampleEntry : FileEntry := ⟨[97, 46, 116, 120, 116], [104, 105]⟩

/-- The three regions `pack` produces for that single entry. -/
def sampleParts : List Nat × List Nat × List Nat :=
  (packParts idCodec [sampleEntry] false none).toOption.getD ([], [], [])

/-- Claim C1, witness: the amended round-trip instantiated on the
concrete single-entry archive `[{name:"a.txt", data:"hi"}]`, stored. -/
theorem c1_round_trip_witness :
    pack idCodec [sampleEntry] false none =
        .ok (sampleParts.1 ++ (sampleParts.2.1 ++ sampleParts.2.2)) ∧
      unpack idCodec (sampleParts.1 ++ (sampleParts.2.1 ++ sampleParts.2.2)) =
        .ok [sampleEntry] :=
  c1_round_trip idCodec [sampleEntry] false none sampleParts.1 sampleParts.2.1 sampleParts.2.2
    rfl (by decide) (by decide) (fun _ _ h => Bool.noConfusion h) (by decide)

/-- A (valid-UTF-8) entry name that embeds the local-file-header
signature followed by 26 zero bytes: its copy inside the central
directory parses as a spurious empty local header. -/
def c1Evil : FileEntry := ⟨[80, 75, 3, 4] ++ List.replicate 26 0, []⟩

/-- Claim C1, counterexample to the claim as stated: for this single
entry (stored, no compression) the decoder returns the entry *plus* a
spurious empty entry scavenged from the central directory, so
`unpack (pack E) ≠ E`. -/
theorem c1_counterexample :
    (pack idCodec [c1Evil] false none).bind (unpack idCodec) =
        .ok [c1Evil, ⟨[], []⟩] ∧
      (pack idCodec [c1Evil] false none).bind (unpack idCodec) ≠
        .ok [c1Evil] :=
  ⟨by decide, by decide⟩

/-! ## Claim C2 -/

/-- Claim C2: packing the single stored entry `{name:"a.txt", data:"hi"}`
yields exactly 110 bytes (30-byte local header + 5-byte name + 2-byte
payload + 46-byte central-directory entry + 5-byte name + 22-byte EOCD),
starting with bytes `50 4B 03 04 14 00 00 00 00 00`, and unpacking that
stream returns exactly the one entry. -/
theorem c2_concrete_scenario :
    (pack idCodec [sampleEntry] false none).map List.length = .ok 110 ∧
      (pack idCodec [sampleEntry] false none).map (List.take 10) =
        .ok [80, 75, 3, 4, 20, 0, 0, 0, 0, 0] ∧
      (pack idCodec [sampleEntry] false none).bind (unpack idCodec) =
        .ok [sampleEntry] :=
  ⟨by decide, by decide, by decide⟩

/-! ## Claim C3 -/

/-- The `decompress` search loop runs past the end when no signature
(with 30 bytes remaining) exists at or after `pos`. -/
theorem findSigAux_pastEnd (s : List Nat) :
    ∀ f pos, s.length - pos < f →
      (∀ p, p + 30 ≤ s.length → sigAt s p = false) →
      s.length < findSigAux s f pos + 30 := by
  intro f
  induction f with
  | zero => intro pos h _; omega
  | succ f ih =>
    intro pos hf hsf
    simp only [findSigAux]
    by_cases h30 : pos + 30 ≤ s.length
    · rw [if_pos (show (decide (pos + 30 ≤ s.length) && !sigAt s pos) = true by
        simp [h30, hsf pos h30])]
      exact ih (pos + 1) (by omega) hsf
    · rw [if_neg (show ¬((decide (pos + 30 ≤ s.length) && !sigAt s pos) = true) by
        simp [h30])]
      omega

/-- The `decompress` search loop stops immediately on a signature. -/
theorem findSigAux_at_sig (s : List Nat) (f pos : Nat)
    (hsig : sigAt s pos = true) : findSigAux s f pos = pos := by
  cases f with
  | zero => rfl
  | succ f =>
    simp only [findSigAux, hsig]
    rw [if_neg (by simp)]

/-- Claim C3 (as amended): on an input stream in which no local-header
signature occurs (with at least 30 bytes remaining from it), the
multi-entry `unpack` does *not* fail — it returns the empty entry
sequence; it is the single-entry `decompress` that fails with the
`NotAnArchive` error (`"Not a ZIP (missing local header)"`). -/
theorem c3_no_signature (c : DeflateCodec) (s : List Nat)
    (h : sigFreeB s = true) :
    unpack c s = .ok [] ∧
      decompress c s = .error "Not a ZIP (missing local header)" := by
  constructor
  · exact unpackAux_sigFree c s (sigFreeB_spec s h) _ _
  · unfold decompress
    rw [if_pos (findSigAux_pastEnd s (s.length + 1) 0 (by omega)
      (sigFreeB_spec s h))]

/-- Claim C3, witness: the amended statement at the concrete signature-free
stream `[1, 2, 3]`. -/
theorem c3_no_signature_witness :
    unpack idCodec [1, 2, 3] = .ok [] ∧
      decompress idCodec [1, 2, 3] = .error "Not a ZIP (missing local header)" :=
  c3_no_signature idCodec [1, 2, 3] (by decide)

/-- Claim C3, counterexample to the claim as stated: the empty stream
contains no local-header signature, yet `unpack` succeeds with the empty
entry sequence instead of failing with `NotAnArchive`. -/
theorem c3_counterexample :
    sigFreeB [] = true ∧ unpack idCodec [] = .ok [] ∧
      ∀ e, unpack idCodec [] ≠ .error e :=
  ⟨rfl, rfl, fun _ h => Except.noConfusion h⟩

/-! ## Claim C8 -/

/-- Claim C8: packing the empty entry sequence yields exactly the 22-byte
EOCD record (both entry counts 0, central-directory size 0, offset 0) and
unpacking that archive returns the empty sequence. -/
theorem c8_empty_pack (c : DeflateCodec) :
    pack c [] false none =
        .ok [80, 75, 5, 6, 0, 0, 0, 0, 0, 0, 0, 0, 0, 0, 0, 0, 0, 0, 0, 0, 0, 0] ∧
      unpack c [80, 75, 5, 6, 0, 0, 0, 0, 0, 0, 0, 0, 0, 0, 0, 0, 0, 0, 0, 0, 0, 0] =
        .ok [] :=
  ⟨rfl, rfl⟩

/-! ## Claim C6 -/

/-- Claim C6: a stream in which the scan, after any number of well-formed
entries, reaches a local header whose general-purpose flag bit 3
(value 8) is set makes `unpack` fail with the `UnsupportedFeature` error,
returning no partial entry sequence. -/
theorem c6_flag_bit3 (c : DeflateCodec) (rs : List EncRec) (t : List Nat)
    (hwf : ∀ r ∈ rs, WellformedRec c r)
    (h30 : 30 ≤ t.length)
    (hsig : sigAt t 0 = true)
    (hb3 : le_u16 t 6 &&& 8 ≠ 0) :
    unpack c ((rs.map chunk).flatten ++ t) =
      .error "Unsupported ZIP: data descriptor (flag bit 3) set" := by
  unfold unpack
  rw [unpackAux_chunks c rs t _ (t.length + 1) hwf
    (by simp only [List.length_append]; omega) (by omega)]
  have ht : unpackAux c t (t.length + 1) 0 =
      .error "Unsupported ZIP: data descriptor (flag bit 3) set" := by
    simp only [unpackAux, Nat.zero_add]
    rw [if_pos (by omega : 0 + 30 ≤ t.length), if_pos hsig, if_pos hb3]
  rw [ht]
  rfl

/-- The 30-byte local header (method 0, all sizes 0, empty name) with
flag bit 3 set, used to instantiate `c6_flag_bit3`. -/
def bit3Header : List Nat :=
  [80, 75, 3, 4, 20, 0, 8, 0, 0, 0, 0, 0, 0, 0, 0, 0, 0, 0, 0, 0, 0, 0,
   0, 0, 0, 0, 0, 0, 0, 0]

/-- Claim C6, witness: one well-formed stored entry followed by a header
with flag bit 3 set. -/
theorem c6_flag_bit3_witness :
    unpack idCodec
        ((([⟨⟨[97], [120]⟩, 0, crc32 [120], [120]⟩] : List EncRec).map
          chunk).flatten ++ bit3Header) =
      .error "Unsupported ZIP: data descriptor (flag bit 3) set" :=
  c6_flag_bit3 idCodec _ _ (by decide) (by decide) (by decide) (by decide)

/-! ## Claim C4 -/

/-- Claim C4 (as amended): `unpack` is all-or-nothing for entries whose
local-header *signature is recognized*: when the scan reaches a header
whose declared name/extra lengths overrun the buffer, the whole decode
fails with the `CorruptArchive` error and none of the previously parsed
entries is returned.  (An entry whose signature bytes themselves are
corrupted is instead skipped by the scan — see `c4_counterexample`.) -/
theorem c4_terminal_error (c : DeflateCodec) (rs : List EncRec) (t : List Nat)
    (hwf : ∀ r ∈ rs, WellformedRec c r)
    (h30 : 30 ≤ t.length)
    (hsig : sigAt t 0 = true)
    (hb3 : le_u16 t 6 &&& 8 = 0)
    (hover : t.length < 30 + le_u16 t 26 + le_u16 t 28) :
    unpack c ((rs.map chunk).flatten ++ t) =
      .error "Corrupt ZIP: header exceeds buffer" := by
  unfold unpack
  rw [unpackAux_chunks c rs t _ (t.length + 1) hwf
    (by simp only [List.length_append]; omega) (by omega)]
  have ht : unpackAux c t (t.length + 1) 0 =
      .error "Corrupt ZIP: header exceeds buffer" := by
    simp only [unpackAux, Nat.zero_add]
    rw [if_pos (by omega : 0 + 30 ≤ t.length), if_pos hsig,
      if_neg (show ¬(le_u16 t 6 &&& 8 ≠ 0) by omega),
      if_pos (show t.length < 30 + le_u16 t 26 + le_u16 t 28 by omega)]
  rw [ht]
  rfl

/-- A recognizable local header whose declared filename length (65535)
overruns the buffer. -/
def oversizedHeader : List Nat :=
  [80, 75, 3, 4, 20, 0, 0, 0, 0, 0, 0, 0, 0, 0, 0, 0, 0, 0, 0, 0, 0, 0,
   0, 0, 0, 0, 255, 255, 0, 0]

/-- Claim C4, witness: one well-formed stored entry followed by a
recognized-but-overrunning header aborts the whole decode. -/
theorem c4_terminal_error_witness :
    unpack idCodec
        ((([⟨⟨[97], [120]⟩, 0, crc32 [120], [120]⟩] : List EncRec).map
          chunk).flatten ++ oversizedHeader) =
      .error "Corrupt ZIP: header exceeds buffer" :=
  c4_terminal_error idCodec _ _ (by decide) (by decide) (by decide) (by decide)
    (by decide)

/-- Claim C4, counterexample to the claim as stated: corrupting the first
byte of the first entry's signature in a two-entry archive does not make
the decode fail — the scanner skips the malformed entry and returns a
partial sequence holding only the second entry. -/
theorem c4_counterexample :
    (pack idCodec [⟨[97], [120]⟩, ⟨[98], [121]⟩] false none).map
        (fun s => unpack idCodec (s.set 0 81)) =
      .ok (.ok [⟨[98], [121]⟩]) ∧
    (pack idCodec [⟨[97], [120]⟩, ⟨[98], [121]⟩] false none).map
        (unpack idCodec) =
      .ok (.ok [⟨[97], [120]⟩, ⟨[98], [121]⟩]) :=
  ⟨by decide, by decide⟩

/-! ## Claim C5 -/

/-- One decode step on a recognized header whose declared payload range
overruns the end of the buffer: the `CorruptArchive` payload error. -/
theorem unpackAux_fde_error (c : DeflateCodec) (t : List Nat) (f : Nat)
    (h30 : 30 ≤ t.length)
    (hsig : sigAt t 0 = true)
    (hb3 : le_u16 t 6 &&& 8 = 0)
    (hhdr : ¬(t.length < 30 + le_u16 t 26 + le_u16 t 28))
    (hutf : utf8Valid (slice t 30 (30 + le_u16 t 26)) = true)
    (hfde : t.length < 30 + le_u16 t 26 + le_u16 t 28 + le_u32 t 18) :
    unpackAux c t (f + 1) 0 = .error "Corrupt ZIP: file data exceeds buffer" := by
  simp only [unpackAux, Nat.zero_add]
  rw [if_pos (by omega : 0 + 30 ≤ t.length), if_pos hsig,
    if_neg (show ¬(le_u16 t 6 &&& 8 ≠ 0) by omega), if_neg hhdr,
    if_pos hutf, if_pos hfde]

/-- Claim C5 (as amended): deleting a payload byte is detected as
`CorruptArchive` precisely when the declared payload range then overruns
the physical end of the stream — e.g. for a local chunk at the end of the
buffer.  In a full archive produced by `pack`, central-directory bytes
slide into the payload range instead and `unpack` silently returns
corrupted data (see `c5_counterexample`). -/
theorem c5_truncation (c : DeflateCodec) (r : EncRec)
    (hw : WellformedRec c r) (hpl : 1 ≤ r.payload.length) :
    unpack c ((chunk r).dropLast) =
      .error "Corrupt ZIP: file data exceeds buffer" := by
  obtain ⟨hn65, hutf, hplw, hmp⟩ := hw
  have hpn : r.payload ≠ [] := by
    intro hnil; rw [hnil] at hpl; simp at hpl
  have hdl : (chunk r).dropLast =
      mkLocalHeader r.method r.crc r.payload.length r.file.data.length
          r.file.name.length
        ++ (r.file.name ++ r.payload.dropLast) := by
    unfold chunk
    rw [List.append_assoc,
      List.dropLast_append_of_ne_nil _
        (show r.file.name ++ r.payload ≠ [] by simp [hpn]),
      List.dropLast_append_of_ne_nil _ hpn]
  have hcs : le_u32 (mkLocalHeader r.method r.crc r.payload.length
      r.file.data.length r.file.name.length
        ++ (r.file.name ++ r.payload.dropLast)) 18 = r.payload.length := by
    rw [hdr_comp]; omega
  have hnl : le_u16 (mkLocalHeader r.method r.crc r.payload.length
      r.file.data.length r.file.name.length
        ++ (r.file.name ++ r.payload.dropLast)) 26 = r.file.name.length := by
    rw [hdr_nameLen]; omega
  have hel := hdr_extra r.method r.crc r.payload.length r.file.data.length
    r.file.name.length (r.file.name ++ r.payload.dropLast)
  have hL : (mkLocalHeader r.method r.crc r.payload.length r.file.data.length
      r.file.name.length ++ (r.file.name ++ r.payload.dropLast)).length =
      30 + r.file.name.length + r.payload.length - 1 := by
    rw [← hdl, List.length_dropLast, chunk_length]
  unfold unpack
  rw [hdl]
  apply unpackAux_fde_error
  · omega
  · exact hdr_sig _ _ _ _ _ _
  · rw [hdr_flags]
    rfl
  · rw [hnl, hel, hL]; omega
  · rw [hnl]
    have hname : slice (mkLocalHeader r.method r.crc r.payload.length
        r.file.data.length r.file.name.length
          ++ (r.file.name ++ r.payload.dropLast)) 30 (30 + r.file.name.length) =
        r.file.name := by
      unfold slice
      rw [show (30 : Nat) = (mkLocalHeader r.method r.crc r.payload.length
        r.file.data.length r.file.name.length).length from rfl, List.drop_left,
        show (mkLocalHeader r.method r.crc r.payload.length r.file.data.length
          r.file.name.length).length + r.file.name.length -
          (mkLocalHeader r.method r.crc r.payload.length r.file.data.length
            r.file.name.length).length = r.file.name.length by omega]
      exact @List.take_left' _ _ _ _ rfl
    rw [hname]
    exact hutf
  · rw [hnl, hel, hcs, hL]; omega

/-- Claim C5, witness: a stored one-byte-name, two-byte-payload chunk,
with its final payload byte deleted and nothing following it, fails with
`CorruptArchive`. -/
theorem c5_truncation_witness :
    unpack idCodec
        ((chunk ⟨⟨[97], [104, 105]⟩, 0, crc32 [104, 105], [104, 105]⟩).dropLast) =
      .error "Corrupt ZIP: file data exceeds buffer" :=
  c5_truncation idCodec _ (by decide) (by decide)

/-- Claim C5, counterexample to the claim as stated: in the 110-byte
`a.txt`/`hi` archive the payload occupies bytes 35..36; deleting byte 35
(payload byte `'h'`) slides the first central-directory byte into the
declared payload range, and `unpack` *succeeds*, returning the corrupted
entry `{name:"a.txt", data:[0x69, 0x50]}` instead of failing with
`CorruptArchive`. -/
theorem c5_counterexample :
    (pack idCodec [sampleEntry] false none).map
        (fun s => unpack idCodec (s.eraseIdx 35)) =
      .ok (.ok [⟨[97, 46, 116, 120, 116], [105, 80]⟩]) :=
  by decide

/-! ## Claim C7 -/

/-- If any entry's name exceeds 65535 bytes, the per-entry encode pass
fails with the `FilenameTooLong` error (the first such entry aborts the
whole `mapM`). -/
theorem mapM_encodeEntry_long (c : DeflateCodec) (ci : Bool) (lvl : Nat) :
    ∀ files : List FileEntry, (∃ fl ∈ files, 65536 ≤ fl.name.length) →
      files.mapM (encodeEntry c ci lvl) = .error "Filename too long for ZIP" := by
  intro files
  induction files with
  | nil =>
    rintro ⟨fl, hfl, -⟩
    simp at hfl
  | cons fl fls ih =>
    rintro ⟨fl', hfl', hlong⟩
    rw [List.mapM_cons]
    by_cases hlen : 65535 < fl.name.length
    · have henc : encodeEntry c ci lvl fl = .error "Filename too long for ZIP" := by
        unfold encodeEntry; rw [if_pos hlen]
      rw [henc]
      rfl
    · have henc : encodeEntry c ci lvl fl =
          .ok ⟨fl, methodOf ci, crc32 fl.data, payloadOf c ci lvl fl⟩ := by
        unfold encodeEntry; rw [if_neg hlen]
      have htail : ∃ fl ∈ fls, 65536 ≤ fl.name.length := by
        rcases List.mem_cons.mp hfl' with h | h
        · subst h; omega
        · exact ⟨fl', h, hlong⟩
      rw [henc]
      simp only [Bind.bind, Except.bind, ih htail]

/-- Claim C7: `pack` succeeds for an entry whose name is exactly 65535
bytes and fails with the `FilenameTooLong` error whenever any entry's
name is 65536 bytes or longer; the same 16-bit bound holds for the
single-entry `compress` operation's filename argument. -/
theorem c7_filename_bound (c : DeflateCodec) :
    (∀ (fl : FileEntry) (ci : Bool) (level : Option Nat),
        fl.name.length = 65535 → (pack c [fl] ci level).isOk = true) ∧
      (∀ (files : List FileEntry) (ci : Bool) (level : Option Nat),
        (∃ fl ∈ files, 65536 ≤ fl.name.length) →
          pack c files ci level = .error "Filename too long for ZIP") ∧
      (∀ (input name : List Nat) (level : Option Nat), name.length = 65535 →
        (compress c input (some name) level).isOk = true) ∧
      (∀ (input name : List Nat) (level : Option Nat), 65536 ≤ name.length →
        compress c input (some name) level = .error "Filename too long") := by
  refine ⟨?_, ?_, ?_, ?_⟩
  · intro fl ci level h
    have henc : encodeEntry c ci (packLvl level) fl =
        .ok ⟨fl, methodOf ci, crc32 fl.data, payloadOf c ci (packLvl level) fl⟩ := by
      unfold encodeEntry; rw [if_neg (by omega)]
    have h1 : [fl].mapM (encodeEntry c ci (packLvl level)) =
        .ok [⟨fl, methodOf ci, crc32 fl.data, payloadOf c ci (packLvl level) fl⟩] := by
      rw [List.mapM_cons, henc, List.mapM_nil]
      rfl
    unfold pack packParts
    rw [h1]
    rfl
  · intro files ci level h
    unfold pack packParts
    rw [mapM_encodeEntry_long c ci (packLvl level) files h]
    rfl
  · intro input name level h
    simp only [compress, Option.getD_some]
    rw [if_neg (by omega : ¬(65535 < name.length))]
    rfl
  · intro input name level h
    simp only [compress, Option.getD_some]
    rw [if_pos (by omega : 65535 < name.length)]

/-- Claim C7, witness: the bound at concrete names of 65535 and 65536
bytes, for both `pack` and `compress`. -/
theorem c7_filename_bound_witness :
    (pack idCodec [⟨List.replicate 65535 97, []⟩] false none).isOk = true ∧
      pack idCodec [⟨List.replicate 65536 97, []⟩] false none =
        .error "Filename too long for ZIP" ∧
      (compress idCodec [] (some (List.replicate 65535 98)) none).isOk = true ∧
      compress idCodec [] (some (List.replicate 65536 98)) none =
        .error "Filename too long" :=
  ⟨(c7_filename_bound idCodec).1 ⟨List.replicate 65535 97, []⟩ false none
      (List.length_replicate 65535 97),
    (c7_filename_bound idCodec).2.1 [⟨List.replicate 65536 97, []⟩] false none
      ⟨⟨List.replicate 65536 97, []⟩, List.mem_singleton_self _,
        (List.length_replicate 65536 97).symm.le⟩,
    (c7_filename_bound idCodec).2.2.1 [] (List.replicate 65535 98) none
      (List.length_replicate 65535 98),
    (c7_filename_bound idCodec).2.2.2 [] (List.replicate 65536 98) none
      (List.length_replicate 65536 98).symm.le⟩

/-! ## Claim C10 -/

/-- `decompress` on a stream that begins with one emitted local chunk:
it finds the signature at offset 0, decodes that chunk's payload and
ignores everything after it (it never validates the filename bytes,
matching the source, which reads no name at all). -/
theorem decompress_chunk (c : DeflateCodec) (r : EncRec) (X : List Nat)
    (hn65 : r.file.name.length ≤ 65535)
    (hpl : r.payload.length < 4294967296)
    (hmp : (r.method = 0 ∧ r.payload = r.file.data) ∨
      (r.method = 8 ∧ c.inflate r.payload = .ok r.file.data)) :
    decompress c (chunk r ++ X) = .ok r.file.data := by
  have hcl := chunk_length r
  have hlen : (chunk r ++ X).length =
      30 + r.file.name.length + r.payload.length + X.length := by
    rw [List.length_append, hcl]
  have hsig' : sigAt (chunk r ++ X) 0 = true := by
    rw [chunk_eq]; exact hdr_sig _ _ _ _ _ _
  have hflags : le_u16 (chunk r ++ X) 6 = 0 := by
    rw [chunk_eq]; exact hdr_flags _ _ _ _ _ _
  have hmeth : le_u16 (chunk r ++ X) 8 = r.method % 65536 := by
    rw [chunk_eq]; exact hdr_method _ _ _ _ _ _
  have hcs : le_u32 (chunk r ++ X) 18 = r.payload.length := by
    rw [chunk_eq, hdr_comp]; omega
  have hnl : le_u16 (chunk r ++ X) 26 = r.file.name.length := by
    rw [chunk_eq, hdr_nameLen]; omega
  have hel : le_u16 (chunk r ++ X) 28 = 0 := by
    rw [chunk_eq]; exact hdr_extra _ _ _ _ _ _
  simp only [decompress]
  rw [findSigAux_at_sig _ _ _ hsig']
  simp only [Nat.zero_add, hflags, hmeth, hcs, hnl, hel, Nat.add_zero]
  rw [if_neg (by omega : ¬((chunk r ++ X).length < 30))]
  rw [if_neg (show ¬((0 : Nat) &&& 8 ≠ 0) by decide)]
  rw [if_neg (by omega : ¬((chunk r ++ X).length <
    30 + r.file.name.length + r.payload.length))]
  rw [chunk_payload_slice]
  rcases hmp with ⟨hm0, hpd⟩ | ⟨hm8, hinf⟩
  · rw [hm0]
    rw [if_pos (show (0 : Nat) % 65536 = 0 by decide)]
    rw [hpd]
  · rw [hm8]
    rw [if_neg (show ¬((8 : Nat) % 65536 = 0) by decide),
      if_pos (show (8 : Nat) % 65536 = 8 by decide)]
    exact hinf

/-- Claim C10: applying the single-entry `decompress` to an archive
`pack` built from more than one entry (first header: flag bit 3 clear,
method 0 or 8, sizes inside the buffer — all guaranteed by `pack`)
succeeds and returns only the decoded payload of the first entry,
silently ignoring the remaining entries, the central directory and the
EOCD. -/
theorem c10_decompress_first (c : DeflateCodec) (e : FileEntry)
    (rest : List FileEntry) (ci : Bool) (level : Option Nat) (s : List Nat)
    (_hne : rest ≠ [])
    (hpack : pack c (e :: rest) ci level = .ok s)
    (hp : (payloadOf c ci (packLvl level) e).length < 4294967296)
    (hinf : ci = true → c.inflate (payloadOf c ci (packLvl level) e) = .ok e.data) :
    decompress c s = .ok e.data := by
  unfold pack packParts at hpack
  cases hm : (e :: rest).mapM (encodeEntry c ci (packLvl level)) with
  | error err =>
    rw [hm] at hpack
    simp [Except.map] at hpack
  | ok rs =>
    rw [hm] at hpack
    simp only [Except.map, Except.ok.injEq] at hpack
    obtain ⟨hrs, hn65⟩ := mapM_encodeEntry_ok c ci (packLvl level) (e :: rest) rs hm
    subst hpack
    rw [hrs]
    have hassoc : ∀ (Cd Eo : List Nat),
        (List.map chunk (List.map (fun fl =>
            (⟨fl, methodOf ci, crc32 fl.data, payloadOf c ci (packLvl level) fl⟩ :
              EncRec)) (e :: rest))).flatten ++ Cd ++ Eo =
          chunk ⟨e, methodOf ci, crc32 e.data, payloadOf c ci (packLvl level) e⟩ ++
            ((List.map chunk (List.map (fun fl =>
              (⟨fl, methodOf ci, crc32 fl.data, payloadOf c ci (packLvl level) fl⟩ :
                EncRec)) rest)).flatten ++ (Cd ++ Eo)) := by
      intro Cd Eo
      simp [List.append_assoc]
    rw [hassoc]
    exact decompress_chunk c
      ⟨e, methodOf ci, crc32 e.data, payloadOf c ci (packLvl level) e⟩ _
      (hn65 e (by simp)) hp
      (by
        cases ci with
        | false => left; exact ⟨rfl, rfl⟩
        | true => right; exact ⟨rfl, hinf rfl⟩)

/-- The two-entry stored archive used to instantiate `c10_decompress_first`. -/
def twoEntryStream : List Nat :=
  (pack idCodec [⟨[97], [120]⟩, ⟨[98], [121]⟩] false none).toOption.getD []

/-- Claim C10, witness: `decompress` of the concrete two-entry archive
returns only the first entry's payload. -/
theorem c10_decompress_first_witness :
    decompress idCodec twoEntryStream = .ok [120] :=
  c10_decompress_first idCodec ⟨[97], [120]⟩ [⟨[98], [121]⟩] false none
    twoEntryStream (by simp) rfl (by decide) (fun h => Bool.noConfusion h)

/-! ## Claim C9 -/

/-- The start positions of the 4-byte `crc32` fields of the local file
headers the decoder identifies: a parallel trace of `unpackAux` (same
guards, same cursor moves) collecting `pos + 14` for every header whose
signature is recognized — the decoder reads that field (line
`let _crc32 = le_u32(&data, pos + 14)`) and then ignores it. -/
def crcPosAux (c : DeflateCodec) (s : List Nat) : Nat → Nat → List Nat
  | 0, _ => []
  | fuel + 1, pos =>
    if pos + 30 ≤ s.length then
      if sigAt s pos then
        let flags := le_u16 s (pos + 6)
        let method := le_u16 s (pos + 8)
        let compSize := le_u32 s (pos + 18)
        let fnameLen := le_u16 s (pos + 26)
        let extraLen := le_u16 s (pos + 28)
        if flags &&& 8 ≠ 0 then [pos + 14]
        else if s.length < pos + (30 + fnameLen + extraLen) then [pos + 14]
        else if utf8Valid (slice s (pos + 30) (pos + (30 + fnameLen))) then
          if s.length < pos + (30 + fnameLen + extraLen + compSize) then
            [pos + 14]
          else
            if method = 0 then
              (pos + 14) :: crcPosAux c s fuel (pos + (30 + fnameLen + extraLen + compSize))
            else if method = 8 then
              match c.inflate (slice s (pos + (30 + fnameLen + extraLen))
                  (pos + (30 + fnameLen + extraLen + compSize))) with
              | .ok _ =>
                (pos + 14) :: crcPosAux c s fuel (pos + (30 + fnameLen + extraLen + compSize))
              | .error _ => [pos + 14]
            else [pos + 14]
        else [pos + 14]
      else crcPosAux c s fuel (pos + 1)
    else []

/-- CRC-field positions of the headers `unpack` identifies in `s`. -/
def crcPositions (c : DeflateCodec) (s : List Nat) : List Nat :=
  crcPosAux c s (s.length + 1) 0

/-- Every collected CRC-field position lies at or after `pos + 14`. -/
theorem crcPosAux_ge (c : DeflateCodec) (s : List Nat) :
    ∀ f pos q, q ∈ crcPosAux c s f pos → pos + 14 ≤ q := by
  intro f
  induction f with
  | zero => intro pos q h; simp [crcPosAux] at h
  | succ f ih =>
    intro pos q h
    simp only [crcPosAux] at h
    by_cases h30 : pos + 30 ≤ s.length
    · rw [if_pos h30] at h
      by_cases hsg : sigAt s pos = true
      · rw [if_pos hsg] at h
        by_cases hb3 : le_u16 s (pos + 6) &&& 8 ≠ 0
        · rw [if_pos hb3] at h; simp at h; omega
        · rw [if_neg hb3] at h
          by_cases hhdr : s.length <
              pos + (30 + le_u16 s (pos + 26) + le_u16 s (pos + 28))
          · rw [if_pos hhdr] at h; simp at h; omega
          · rw [if_neg hhdr] at h
            by_cases hutf : utf8Valid (slice s (pos + 30)
                (pos + (30 + le_u16 s (pos + 26)))) = true
            · rw [if_pos hutf] at h
              by_cases hfde : s.length < pos + (30 + le_u16 s (pos + 26) +
                  le_u16 s (pos + 28) + le_u32 s (pos + 18))
              · rw [if_pos hfde] at h; simp at h; omega
              · rw [if_neg hfde] at h
                by_cases hm0 : le_u16 s (pos + 8) = 0
                · rw [if_pos hm0] at h
                  rcases List.mem_cons.mp h with h | h
                  · omega
                  · have := ih _ q h; omega
                · rw [if_neg hm0] at h
                  by_cases hm8 : le_u16 s (pos + 8) = 8
                  · rw [if_pos hm8] at h
                    cases hx : c.inflate (slice s
                        (pos + (30 + le_u16 s (pos + 26) + le_u16 s (pos + 28)))
                        (pos + (30 + le_u16 s (pos + 26) + le_u16 s (pos + 28) +
                          le_u32 s (pos + 18)))) with
                    | ok v =>
                      rw [hx] at h
                      rcases List.mem_cons.mp h with h | h
                      · omega
                      · have := ih _ q h; omega
                    | error e => rw [hx] at h; simp at h; omega
                  · rw [if_neg hm8] at h; simp at h; omega
            · rw [if_neg hutf] at h; simp at h; omega
      · rw [if_neg hsg] at h
        have := ih (pos + 1) q h
        omega
    · rw [if_neg h30] at h
      simp at h

/-- If two equal-length streams agree on a range, so do their slices. -/
theorem slice_congr (s s' : List Nat) (a b : Nat)
    (hlen : s'.length = s.length) (hb : b ≤ s.length)
    (h : ∀ i, a ≤ i → i < b → byteAt s' i = byteAt s i) :
    slice s' a b = slice s a b := by
  apply List.ext_getElem
  · simp only [slice, List.length_take, List.length_drop, hlen]
  · intro i h1 h2
    have hib : i < b - a := by
      simp only [slice, List.length_take, List.length_drop] at h1
      omega
    simp only [slice, List.getElem_take, List.getElem_drop]
    rw [← List.getD_eq_getElem s' 0 (by omega : a + i < s'.length),
      ← List.getD_eq_getElem s 0 (by omega : a + i < s.length)]
    exact h (a + i) (by omega) (by omega)

/-- The decode result is unchanged under any modification of the bytes
inside the CRC fields of the headers the decoder identifies: the stored
checksum is read but never used. -/
theorem unpackAux_crc_indep (c : DeflateCodec) (s s' : List Nat)
    (hlen : s'.length = s.length) :
    ∀ f pos,
      (∀ i, pos ≤ i → i < s.length →
        (∀ q ∈ crcPosAux c s f pos, i < q ∨ q + 4 ≤ i) →
        byteAt s' i = byteAt s i) →
      unpackAux c s' f pos = unpackAux c s f pos := by
  intro f
  induction f with
  | zero => intro pos _; rfl
  | succ f ih =>
    intro pos hag
    simp only [unpackAux]
    by_cases h30 : pos + 30 ≤ s.length
    · rw [if_pos (show pos + 30 ≤ s'.length by omega), if_pos h30]
      have hlow : ∀ i, pos ≤ i → i < pos + 14 → i < s.length →
          byteAt s' i = byteAt s i := by
        intro i h1 h2 h3
        apply hag i h1 h3
        intro q hq
        left
        have := crcPosAux_ge c s (f + 1) pos q hq
        omega
      have hsig_eq : sigAt s' pos = sigAt s pos := by
        unfold sigAt
        rw [hlow pos (by omega) (by omega) (by omega),
          hlow (pos + 1) (by omega) (by omega) (by omega),
          hlow (pos + 2) (by omega) (by omega) (by omega),
          hlow (pos + 3) (by omega) (by omega) (by omega)]
      by_cases hsg : sigAt s pos = true
      · rw [hsig_eq, hsg, if_pos rfl, if_pos rfl]
        have hq_shape : ∀ q ∈ crcPosAux c s (f + 1) pos,
            q = pos + 14 ∨
              pos + (30 + le_u16 s (pos + 26) + le_u16 s (pos + 28) +
                le_u32 s (pos + 18)) + 14 ≤ q := by
          intro q hq
          simp only [crcPosAux] at hq
          rw [if_pos h30, if_pos hsg] at hq
          by_cases hb3 : le_u16 s (pos + 6) &&& 8 ≠ 0
          · rw [if_pos hb3] at hq; simp at hq; left; exact hq
          · rw [if_neg hb3] at hq
            by_cases hhdr : s.length <
                pos + (30 + le_u16 s (pos + 26) + le_u16 s (pos + 28))
            · rw [if_pos hhdr] at hq; simp at hq; left; exact hq
            · rw [if_neg hhdr] at hq
              by_cases hutf : utf8Valid (slice s (pos + 30)
                  (pos + (30 + le_u16 s (pos + 26)))) = true
              · rw [if_pos hutf] at hq
                by_cases hfde : s.length < pos + (30 + le_u16 s (pos + 26) +
                    le_u16 s (pos + 28) + le_u32 s (pos + 18))
                · rw [if_pos hfde] at hq; simp at hq; left; exact hq
                · rw [if_neg hfde] at hq
                  by_cases hm0 : le_u16 s (pos + 8) = 0
                  · rw [if_pos hm0] at hq
                    rcases List.mem_cons.mp hq with h | h
                    · left; exact h
                    · right; exact crcPosAux_ge c s f _ q h
                  · rw [if_neg hm0] at hq
                    by_cases hm8 : le_u16 s (pos + 8) = 8
                    · rw [if_pos hm8] at hq
                      cases hx : c.inflate (slice s
                          (pos + (30 + le_u16 s (pos + 26) + le_u16 s (pos + 28)))
                          (pos + (30 + le_u16 s (pos + 26) + le_u16 s (pos + 28) +
                            le_u32 s (pos + 18)))) with
                      | ok v =>
                        rw [hx] at hq
                        rcases List.mem_cons.mp hq with h | h
                        · left; exact h
                        · right; exact crcPosAux_ge c s f _ q h
                      | error e => rw [hx] at hq; simp at hq; left; exact hq
                    · rw [if_neg hm8] at hq; simp at hq; left; exact hq
              · rw [if_neg hutf] at hq; simp at hq; left; exact hq
        have hhigh : ∀ i, pos + 18 ≤ i →
            i < pos + (30 + le_u16 s (pos + 26) + le_u16 s (pos + 28) +
              le_u32 s (pos + 18)) →
            i < s.length → byteAt s' i = byteAt s i := by
          intro i h1 h2 h3
          apply hag i (by omega) h3
          intro q hq
          rcases hq_shape q hq with h | h
          · right; omega
          · left; omega
        have hfl_eq : le_u16 s' (pos + 6) = le_u16 s (pos + 6) := by
          unfold le_u16
          rw [hlow (pos + 6) (by omega) (by omega) (by omega),
            show pos + 6 + 1 = pos + 7 by omega,
            hlow (pos + 7) (by omega) (by omega) (by omega)]
        have hme_eq : le_u16 s' (pos + 8) = le_u16 s (pos + 8) := by
          unfold le_u16
          rw [hlow (pos + 8) (by omega) (by omega) (by omega),
            show pos + 8 + 1 = pos + 9 by omega,
            hlow (pos + 9) (by omega) (by omega) (by omega)]
        have hcs_eq : le_u32 s' (pos + 18) = le_u32 s (pos + 18) := by
          unfold le_u32
          rw [hhigh (pos + 18) (by omega) (by omega) (by omega),
            show pos + 18 + 1 = pos + 19 by omega,
            hhigh (pos + 19) (by omega) (by omega) (by omega),
            show pos + 19 + 1 = pos + 20 by omega,
            hhigh (pos + 20) (by omega) (by omega) (by omega),
            show pos + 20 + 1 = pos + 21 by omega,
            hhigh (pos + 21) (by omega) (by omega) (by omega)]
        have hnl_eq : le_u16 s' (pos + 26) = le_u16 s (pos + 26) := by
          unfold le_u16
          rw [hhigh (pos + 26) (by omega) (by omega) (by omega),
            show pos + 26 + 1 = pos + 27 by omega,
            hhigh (pos + 27) (by omega) (by omega) (by omega)]
        have hel_eq : le_u16 s' (pos + 28) = le_u16 s (pos + 28) := by
          unfold le_u16
          rw [hhigh (pos + 28) (by omega) (by omega) (by omega),
            show pos + 28 + 1 = pos + 29 by omega,
            hhigh (pos + 29) (by omega) (by omega) (by omega)]
        simp only [hfl_eq, hme_eq, hcs_eq, hnl_eq, hel_eq, hlen]
        by_cases hb3 : le_u16 s (pos + 6) &&& 8 ≠ 0
        · rw [if_pos hb3, if_pos hb3]
        · rw [if_neg hb3, if_neg hb3]
          by_cases hhdr : s.length <
              pos + (30 + le_u16 s (pos + 26) + le_u16 s (pos + 28))
          · rw [if_pos hhdr, if_pos hhdr]
          · rw [if_neg hhdr, if_neg hhdr]
            have hname_eq : slice s' (pos + 30) (pos + (30 + le_u16 s (pos + 26))) =
                slice s (pos + 30) (pos + (30 + le_u16 s (pos + 26))) := by
              apply slice_congr s s' _ _ hlen (by omega)
              intro i h1 h2
              exact hhigh i (by omega) (by omega) (by omega)
            rw [hname_eq]
            by_cases hutf : utf8Valid (slice s (pos + 30)
                (pos + (30 + le_u16 s (pos + 26)))) = true
            · rw [if_pos hutf, if_pos hutf]
              by_cases hfde : s.length < pos + (30 + le_u16 s (pos + 26) +
                  le_u16 s (pos + 28) + le_u32 s (pos + 18))
              · rw [if_pos hfde, if_pos hfde]
              · rw [if_neg hfde, if_neg hfde]
                have hraw_eq : slice s'
                    (pos + (30 + le_u16 s (pos + 26) + le_u16 s (pos + 28)))
                    (pos + (30 + le_u16 s (pos + 26) + le_u16 s (pos + 28) +
                      le_u32 s (pos + 18))) =
                    slice s
                    (pos + (30 + le_u16 s (pos + 26) + le_u16 s (pos + 28)))
                    (pos + (30 + le_u16 s (pos + 26) + le_u16 s (pos + 28) +
                      le_u32 s (pos + 18))) := by
                  apply slice_congr s s' _ _ hlen (by omega)
                  intro i h1 h2
                  exact hhigh i (by omega) (by omega) (by omega)
                rw [hraw_eq]
                by_cases hm0 : le_u16 s (pos + 8) = 0
                · rw [if_pos hm0, if_pos hm0]
                  have htr : crcPosAux c s (f + 1) pos =
                      (pos + 14) :: crcPosAux c s f
                        (pos + (30 + le_u16 s (pos + 26) + le_u16 s (pos + 28) +
                          le_u32 s (pos + 18))) := by
                    simp only [crcPosAux]
                    rw [if_pos h30, if_pos hsg, if_neg hb3, if_neg hhdr,
                      if_pos hutf, if_neg hfde, if_pos hm0]
                  have hrec : unpackAux c s' f
                      (pos + (30 + le_u16 s (pos + 26) + le_u16 s (pos + 28) +
                        le_u32 s (pos + 18))) =
                      unpackAux c s f
                      (pos + (30 + le_u16 s (pos + 26) + le_u16 s (pos + 28) +
                        le_u32 s (pos + 18))) := by
                    apply ih
                    intro i h1 h2 h3
                    apply hag i (by omega) h2
                    intro q hq
                    rw [htr] at hq
                    rcases List.mem_cons.mp hq with h | h
                    · right; omega
                    · exact h3 q h
                  rw [hrec]
                · rw [if_neg hm0, if_neg hm0]
                  by_cases hm8 : le_u16 s (pos + 8) = 8
                  · rw [if_pos hm8, if_pos hm8]
                    cases hx : c.inflate (slice s
                        (pos + (30 + le_u16 s (pos + 26) + le_u16 s (pos + 28)))
                        (pos + (30 + le_u16 s (pos + 26) + le_u16 s (pos + 28) +
                          le_u32 s (pos + 18)))) with
                    | ok v =>
                      simp only [hx]
                      have htr : crcPosAux c s (f + 1) pos =
                          (pos + 14) :: crcPosAux c s f
                            (pos + (30 + le_u16 s (pos + 26) + le_u16 s (pos + 28) +
                              le_u32 s (pos + 18))) := by
                        simp only [crcPosAux]
                        rw [if_pos h30, if_pos hsg, if_neg hb3, if_neg hhdr,
                          if_pos hutf, if_neg hfde, if_neg hm0, if_pos hm8, hx]
                      have hrec : unpackAux c s' f
                          (pos + (30 + le_u16 s (pos + 26) + le_u16 s (pos + 28) +
                            le_u32 s (pos + 18))) =
                          unpackAux c s f
                          (pos + (30 + le_u16 s (pos + 26) + le_u16 s (pos + 28) +
                            le_u32 s (pos + 18))) := by
                        apply ih
                        intro i h1 h2 h3
                        apply hag i (by omega) h2
                        intro q hq
                        rw [htr] at hq
                        rcases List.mem_cons.mp hq with h | h
                        · right; omega
                        · exact h3 q h
                      rw [hrec]
                    | error e => simp only [hx]
                  · rw [if_neg hm8, if_neg hm8]
            · rw [if_neg hutf, if_neg hutf]
      · rw [hsig_eq, if_neg hsg, if_neg hsg]
        have htr : crcPosAux c s (f + 1) pos = crcPosAux c s f (pos + 1) := by
          simp only [crcPosAux]
          rw [if_pos h30, if_neg hsg]
        apply ih
        intro i h1 h2 h3
        apply hag i (by omega) h2
        intro q hq
        rw [htr] at hq
        exact h3 q hq
    · rw [if_neg (show ¬(pos + 30 ≤ s'.length) by omega), if_neg h30]

/-- Claim C9: `unpack` never verifies CRC32 — two input streams that are
identical except inside the 4-byte `crc32` fields of the local file
headers the decoder identifies decode to the same result (same entries
or same error); the stored checksum value never influences the output. -/
theorem c9_crc_ignored (c : DeflateCodec) (s s' : List Nat)
    (hlen : s'.length = s.length)
    (hag : ∀ i, i < s.length →
      (∀ q ∈ crcPositions c s, i < q ∨ q + 4 ≤ i) →
      byteAt s' i = byteAt s i) :
    unpack c s' = unpack c s := by
  unfold unpack
  rw [hlen]
  exact unpackAux_crc_indep c s s' hlen (s.length + 1) 0
    (fun i _ h2 h3 => hag i h2 h3)

/-- A 30-byte stored local header (empty name, empty payload) with CRC
field bytes `DE AD BE EF`. -/
def crcHeaderA : List Nat :=
  [80, 75, 3, 4, 20, 0, 0, 0, 0, 0, 0, 0, 0, 0, 222, 173, 190, 239,
   0, 0, 0, 0, 0, 0, 0, 0, 0, 0, 0, 0]

/-- The same header with the CRC field zeroed. -/
def crcHeaderB : List Nat :=
  [80, 75, 3, 4, 20, 0, 0, 0, 0, 0, 0, 0, 0, 0, 0, 0, 0, 0,
   0, 0, 0, 0, 0, 0, 0, 0, 0, 0, 0, 0]

/-- Claim C9, witness: the two headers differ exactly in the CRC field
(positions 14..17, the only entry of `crcPositions`), and decode
identically. -/
theorem c9_crc_ignored_witness :
    unpack idCodec crcHeaderB = unpack idCodec crcHeaderA :=
  c9_crc_ignored idCodec crcHeaderA crcHeaderB (by decide) (by decide)

end Droply
